import Mathlib

/-!
Verification of the chemical-structure transformation and deduplication
pipeline exercised by the matgenb notebooks.

The notebooks define one in-repository function, `get_most_stable_entry`
(reaction-energy notebook), and otherwise call external library components
(reaction balancing, disorder enumeration, structure matching).  We embed
the in-repository code directly and model the external components from the
specification's contracts; every modelled definition carries a doc comment
saying so.
-/

/-- Chemical elements occurring in the notebooks' chemical system. -/
inductive Elem where
  | Ca : Elem
  | C : Elem
  | O : Elem
deriving DecidableEq, Repr

instance : Fintype Elem :=
  ⟨⟨{Elem.Ca, Elem.C, Elem.O}, by decide⟩, fun x => by cases x <;> decide⟩

/-- A composition: the count of each element in a formula unit
(`pymatgen.core.Composition` restricted to integer counts). -/
def Comp : Type := Elem → ℕ

instance : DecidableEq Comp := fun f g =>
  decidable_of_iff (∀ x : Elem, f x = g x) ⟨funext, fun h x => congrFun h x⟩

/-- Total number of atoms in a composition. -/
def Comp.natoms (c : Comp) : ℕ := ∑ x : Elem, c x

/-- The reduced composition: every count divided by the gcd of all counts.
Two compositions have the same `reduced_formula` string in the source
exactly when their reduced compositions are equal. -/
def Comp.reduced (c : Comp) : Comp := fun x => c x / Finset.univ.gcd c

/-- A computed entry: a composition together with its (total, per formula
unit) energy.  Mirrors the fields of `ComputedEntry` that the notebook
reads: `composition`, `energy`, `energy_per_atom`. -/
structure Entry where
  comp : Comp
  energy : ℚ
deriving DecidableEq

/-- `entry.energy_per_atom` : total energy divided by the atom count. -/
def Entry.energy_per_atom (e : Entry) : ℚ := e.energy / (e.comp.natoms : ℚ)

/-- The comparison used to sort entries, embedding the key
`lambda e: e.energy_per_atom` passed to Python's `sorted`.  Python's
`sorted` is the stable ascending sort by this key; stable sorts for a
fixed total preorder are unique, so the stable `List.insertionSort` below
is extensionally the same function. -/
def epaRel (a b : Entry) : Prop := a.energy_per_atom ≤ b.energy_per_atom

instance : DecidableRel epaRel := fun a b =>
  inferInstanceAs (Decidable (a.energy_per_atom ≤ b.energy_per_atom))

instance : IsTotal Entry epaRel := ⟨fun a b => le_total a.energy_per_atom b.energy_per_atom⟩

instance : IsTrans Entry epaRel := ⟨fun _ _ _ h1 h2 => le_trans h1 h2⟩

/-- The list `relevant_entries` built by `get_most_stable_entry`:
entries of the repository whose reduced composition matches the request,
sorted ascending by per-atom energy.  This is the spec's
`entries_for(composition)`. -/
def entries_for (all_entries : List Entry) (c : Comp) : List Entry :=
  List.insertionSort epaRel (all_entries.filter fun e => decide (e.comp.reduced = c.reduced))

/-- Embedding of the notebook's

    def get_most_stable_entry(formula):
        relevant_entries = [entry for entry in all_entries
          if entry.composition.reduced_formula == Composition(formula).reduced_formula]
        relevant_entries = sorted(relevant_entries, key=lambda e: e.energy_per_atom)
        return relevant_entries[0]

`relevant_entries[0]` on an empty list fails (Python raises); the failure
is modelled as `none`. -/
def get_most_stable_entry (all_entries : List Entry) (c : Comp) : Option Entry :=
  (entries_for all_entries c).head?

/-- State-passing embedding of `get_most_stable_entry` for the frame
property: the repository list `all_entries` is threaded through and
returned.  The list comprehension builds a fresh list and Python's
`sorted` returns a new list, so the repository component of the state is
passed through untouched; rebinding the local name `relevant_entries`
does not touch it either. -/
def get_most_stable_entry_st (all_entries : List Entry) (c : Comp) :
    Option Entry × List Entry :=
  let relevant := all_entries.filter fun e => decide (e.comp.reduced = c.reduced)
  let relevant2 := List.insertionSort epaRel relevant
  (relevant2.head?, all_entries)

/-- Evaluation helper: the atom count is the sum of the three element
counts. -/
theorem natoms_eval (c : Comp) : c.natoms = c Elem.Ca + (c Elem.C + c Elem.O) := rfl

/-- The composition CaO. -/
def compCaO : Comp := fun x => match x with | .Ca => 1 | .C => 0 | .O => 1

/-- The composition CO2. -/
def compCO2 : Comp := fun x => match x with | .Ca => 0 | .C => 1 | .O => 2

/-- The composition CaCO3. -/
def compCaCO3 : Comp := fun x => match x with | .Ca => 1 | .C => 1 | .O => 3

/-- The composition Ca2O2, which reduces to CaO. -/
def compCa2O2 : Comp := fun x => match x with | .Ca => 2 | .C => 0 | .O => 2

/-- Modelled from the spec: a concrete calculated entry set for the
Ca-C-O system standing in for the Materials Project data the notebook
fetches over the network (the repository records only the resulting
energies, not the entries); energies are eV per formula unit, chosen so
the CaO + CO2 -> CaCO3 reaction energy converts to about -147 kJ/mol. -/
def eCaO : Entry := ⟨compCaO, -1278/100⟩

/-- A higher-energy CaO polymorph entry (see `eCaO`). -/
def eCaOhi : Entry := ⟨compCaO, -12⟩

/-- A Ca2O2-labelled entry whose reduced composition is CaO (see `eCaO`). -/
def eCa2O2 : Entry := ⟨compCa2O2, -24⟩

/-- The lowest-energy CO2 entry (see `eCaO`). -/
def eCO2 : Entry := ⟨compCO2, -2293/100⟩

/-- A higher-energy CO2 entry (see `eCaO`). -/
def eCO2hi : Entry := ⟨compCO2, -21⟩

/-- The lowest-energy CaCO3 entry (see `eCaO`). -/
def eCaCO3 : Entry := ⟨compCaCO3, -3723/100⟩

/-- Modelled from the spec: the calculated entry repository (see `eCaO`). -/
def calcEntries : List Entry := [eCaOhi, eCaO, eCa2O2, eCO2, eCO2hi, eCaCO3]

theorem entries_for_sorted (all_entries : List Entry) (c : Comp) :
    (entries_for all_entries c).Pairwise fun a b => a.energy_per_atom ≤ b.energy_per_atom :=
  List.Pairwise.imp (fun h => h) (List.sorted_insertionSort epaRel _)

theorem mem_entries_for (all_entries : List Entry) (c : Comp) (e : Entry) :
    e ∈ entries_for all_entries c ↔
      e ∈ all_entries ∧ e.comp.reduced = c.reduced := by
  unfold entries_for
  rw [(List.perm_insertionSort epaRel _).mem_iff]
  simp

/-- C1: when `get_most_stable_entry` succeeds it returns an entry of the
repository with the requested reduced composition whose per-atom energy is
minimal among all matching entries; it is the first element of
`entries_for`, which is sorted ascending by per-atom energy. -/
theorem get_most_stable_entry_min (all_entries : List Entry) (c : Comp) (e : Entry)
    (h : get_most_stable_entry all_entries c = some e) :
    e ∈ all_entries ∧ e.comp.reduced = c.reduced ∧
      (∀ e' ∈ all_entries, e'.comp.reduced = c.reduced →
        e.energy_per_atom ≤ e'.energy_per_atom) ∧
      (entries_for all_entries c).head? = some e ∧
      (entries_for all_entries c).Pairwise
        (fun a b => a.energy_per_atom ≤ b.energy_per_atom) := by
  unfold get_most_stable_entry at h
  have hmem : e ∈ entries_for all_entries c := by
    cases hl : entries_for all_entries c with
    | nil => rw [hl] at h; simp at h
    | cons x t =>
      rw [hl] at h
      simp only [List.head?_cons, Option.some.injEq] at h
      subst h; exact List.mem_cons_self x t
  obtain ⟨he1, he2⟩ := (mem_entries_for all_entries c e).mp hmem
  refine ⟨he1, he2, ?_, h, entries_for_sorted all_entries c⟩
  intro e' he' hred
  have hmem' : e' ∈ entries_for all_entries c :=
    (mem_entries_for all_entries c e').mpr ⟨he', hred⟩
  cases hl : entries_for all_entries c with
  | nil => rw [hl] at hmem; simp at hmem
  | cons x t =>
    rw [hl] at h
    simp only [List.head?_cons, Option.some.injEq] at h
    subst h
    have hsorted := entries_for_sorted all_entries c
    rw [hl] at hsorted hmem'
    rcases List.mem_cons.mp hmem' with h' | h'
    · rw [h']
    · exact (List.pairwise_cons.mp hsorted).1 e' h'

/-- Evaluation of `get_most_stable_entry` on the concrete calculated
repository at CaO: three entries match (two labelled CaO, one Ca2O2) and
the per-formula-unit -12.78 eV entry wins on per-atom energy. -/
theorem gmse_CaO_eval : get_most_stable_entry calcEntries compCaO = some eCaO := by
  have h1 : epaRel eCaO eCa2O2 := by
    norm_num [epaRel, Entry.energy_per_atom, natoms_eval, eCaO, eCa2O2, compCaO, compCa2O2]
  have h2 : ¬ epaRel eCaOhi eCaO := by
    norm_num [epaRel, Entry.energy_per_atom, natoms_eval, eCaO, eCaOhi, compCaO]
  have h3 : epaRel eCaOhi eCa2O2 := by
    norm_num [epaRel, Entry.energy_per_atom, natoms_eval, eCaOhi, eCa2O2, compCaO, compCa2O2]
  unfold get_most_stable_entry entries_for
  rw [show calcEntries.filter (fun e => decide (e.comp.reduced = compCaO.reduced)) =
      [eCaOhi, eCaO, eCa2O2] from rfl]
  simp [List.insertionSort, List.orderedInsert, h1, h2, h3]

/-- C1 witness: on the concrete calculated repository, the returned CaO
entry is in the repository, matches the reduced composition, minimizes
per-atom energy among matching entries, and heads the sorted
`entries_for` list. -/
theorem get_most_stable_entry_min_witness :
    eCaO ∈ calcEntries ∧ eCaO.comp.reduced = compCaO.reduced ∧
      (∀ e' ∈ calcEntries, e'.comp.reduced = compCaO.reduced →
        eCaO.energy_per_atom ≤ e'.energy_per_atom) ∧
      (entries_for calcEntries compCaO).head? = some eCaO ∧
      (entries_for calcEntries compCaO).Pairwise
        (fun a b => a.energy_per_atom ≤ b.energy_per_atom) :=
  get_most_stable_entry_min calcEntries compCaO eCaO gmse_CaO_eval

/-- C2: `get_most_stable_entry` fails exactly when the repository holds no
entry with a matching reduced composition; the empty `relevant_entries`
list is its only failure mode. -/
theorem get_most_stable_entry_none_iff (all_entries : List Entry) (c : Comp) :
    get_most_stable_entry all_entries c = none ↔
      ∀ e ∈ all_entries, ¬ e.comp.reduced = c.reduced := by
  unfold get_most_stable_entry entries_for
  rw [List.head?_eq_none_iff, ← List.length_eq_zero,
    (List.perm_insertionSort epaRel _).length_eq, List.length_eq_zero,
    List.filter_eq_nil_iff]
  simp

/-- C9: the result of `get_most_stable_entry` depends only on the reduced
composition of its argument: two requested compositions with equal reduced
compositions give the same entry. -/
theorem get_most_stable_entry_reduced_congr (all_entries : List Entry) (c₁ c₂ : Comp)
    (h : c₁.reduced = c₂.reduced) :
    get_most_stable_entry all_entries c₁ = get_most_stable_entry all_entries c₂ := by
  unfold get_most_stable_entry entries_for
  rw [h]

/-- C9 witness: Ca2O2 reduces like CaO, and on the concrete calculated
repository the two requests return the same entry. -/
theorem get_most_stable_entry_reduced_congr_witness :
    compCa2O2.reduced = compCaO.reduced ∧
      get_most_stable_entry calcEntries compCa2O2 =
        get_most_stable_entry calcEntries compCaO :=
  ⟨by decide, get_most_stable_entry_reduced_congr calcEntries compCa2O2 compCaO (by decide)⟩

/-- C10: `get_most_stable_entry` does not modify the entry repository:
the state-passing embedding returns `all_entries` unchanged (the filter
comprehension and Python's `sorted` both build new lists), and its result
agrees with the pure embedding. -/
theorem get_most_stable_entry_frame (all_entries : List Entry) (c : Comp) :
    (get_most_stable_entry_st all_entries c).2 = all_entries ∧
      (get_most_stable_entry_st all_entries c).1 = get_most_stable_entry all_entries c := by
  exact ⟨rfl, rfl⟩

/-- The scaled count of element `x` contributed by one side of a
reaction: coefficients `cs` applied entrywise to the entries `es`. -/
def sideCount (cs : List ℕ) (es : List Entry) (x : Elem) : ℕ :=
  (List.zipWith (fun c e => c * e.comp x) cs es).sum

/-- All lists of `m` positive naturals summing to exactly `s`, the
candidate coefficient vectors for one side of a reaction. -/
def tuplesP : ℕ → ℕ → List (List ℕ)
  | 0, s => if s = 0 then [[]] else []
  | m + 1, s =>
    (List.range s).flatMap fun v => (tuplesP m (s - (v + 1))).map fun t => (v + 1) :: t

/-- All coefficient-vector pairs (reactant side of length `m`, product
side of length `n`) with positive entries and total coefficient sum `s`. -/
def sideAssign (m n s : ℕ) : List (List ℕ × List ℕ) :=
  (List.range (s + 1)).flatMap fun t =>
    (tuplesP m t).flatMap fun a => (tuplesP n (s - t)).map fun b => (a, b)

/-- Modelled from the spec: the Reaction Balancer's validity test (the
balancer itself, `ComputedReaction`, lives in the external library, not
in this repository) — for every element, the scaled count on the
reactant side equals the scaled count on the product side. -/
def balancedBool (r p : List Entry) (ab : List ℕ × List ℕ) : Bool :=
  decide (∀ x : Elem, sideCount ab.1 r x = sideCount ab.2 p x)

/-- The balanced coefficient assignments with total coefficient sum `s`. -/
def balAt (r p : List Entry) (s : ℕ) : List (List ℕ × List ℕ) :=
  (sideAssign r.length p.length s).filter (balancedBool r p)

/-- Modelled from the spec: the Reaction Balancer's search.  It scans
total coefficient sums `s = 0, 1, 2, ...` up to a fuel bound, takes the
least `s` admitting a balanced assignment, and succeeds only when that
assignment is unique (ambiguity is surfaced as failure, never silently
resolved); `none` models `UnbalancedReactionError`. -/
def balanceAux (r p : List Entry) : ℕ → ℕ → Option (List ℕ × List ℕ)
  | 0 => fun _ => none
  | fuel + 1 => fun s =>
    match balAt r p s with
    | [] => balanceAux r p fuel (s + 1)
    | [ab] => some ab
    | _ :: _ :: _ => none

/-- Modelled from the spec: `balance(reactants, products)` with a fuel
bound on the total coefficient sum. -/
def balance (maxTotal : ℕ) (r p : List Entry) : Option (List ℕ × List ℕ) :=
  balanceAux r p maxTotal 0

/-- Modelled from the spec: the reaction energy delta — the weighted sum
of product energies minus reactant energies, weights given by the
balanced coefficients. -/
def rxnEnergy (r p : List Entry) (ab : List ℕ × List ℕ) : ℚ :=
  (List.zipWith (fun c e => (c : ℚ) * e.energy) ab.2 p).sum -
    (List.zipWith (fun c e => (c : ℚ) * e.energy) ab.1 r).sum

theorem mem_tuplesP : ∀ (m s : ℕ) (a : List ℕ),
    a ∈ tuplesP m s ↔ a.length = m ∧ (∀ v ∈ a, 1 ≤ v) ∧ a.sum = s
  | 0, s, a => by
    simp only [tuplesP]
    by_cases hs : s = 0
    · subst hs
      rw [if_pos rfl]
      simp only [List.mem_singleton]
      constructor
      · rintro rfl
        simp
      · rintro ⟨h1, -, -⟩
        exact List.length_eq_zero.mp h1
    · rw [if_neg hs]
      simp only [List.not_mem_nil, false_iff, not_and]
      intro h1 _ h3
      apply hs
      have ha : a = [] := List.length_eq_zero.mp h1
      subst ha
      simpa using h3.symm
  | m + 1, s, a => by
    simp only [tuplesP, List.mem_flatMap, List.mem_map, List.mem_range]
    constructor
    · rintro ⟨v, hv, t, ht, rfl⟩
      obtain ⟨hl, hp, hs⟩ := (mem_tuplesP m (s - (v + 1)) t).mp ht
      refine ⟨by simp [hl], ?_, ?_⟩
      · intro w hw
        rcases List.mem_cons.mp hw with rfl | hw
        · omega
        · exact hp w hw
      · simp only [List.sum_cons, hs]; omega
    · rintro ⟨h1, h2, h3⟩
      cases a with
      | nil => simp at h1
      | cons c t =>
        have hc : 1 ≤ c := h2 c (List.mem_cons_self c t)
        have hcs : c + t.sum = s := by simpa using h3
        refine ⟨c - 1, by omega, t, ?_, ?_⟩
        · refine (mem_tuplesP m (s - (c - 1 + 1)) t).mpr ⟨by simpa using h1, ?_, by omega⟩
          exact fun v hv => h2 v (List.mem_cons_of_mem c hv)
        · congr 1; omega

theorem nodup_tuplesP : ∀ m s : ℕ, (tuplesP m s).Nodup
  | 0, s => by
    by_cases hs : s = 0 <;> simp [tuplesP, hs]
  | m + 1, s => by
    simp only [tuplesP]
    rw [List.nodup_flatMap]
    constructor
    · intro v _
      exact (nodup_tuplesP m (s - (v + 1))).map fun t t' h => by
        simpa using h
    · refine List.Pairwise.imp ?_ (List.nodup_range s)
      intro v w hvw a ha ha'
      simp only [Function.onFun, List.mem_map] at ha ha'
      obtain ⟨t, -, rfl⟩ := ha
      obtain ⟨t', -, h⟩ := ha'
      injection h with hh ht
      exact hvw (by omega)

theorem mem_sideAssign (m n s : ℕ) (ab : List ℕ × List ℕ) :
    ab ∈ sideAssign m n s ↔
      ab.1.length = m ∧ ab.2.length = n ∧ (∀ v ∈ ab.1, 1 ≤ v) ∧ (∀ v ∈ ab.2, 1 ≤ v) ∧
        ab.1.sum + ab.2.sum = s := by
  simp only [sideAssign, List.mem_flatMap, List.mem_map, List.mem_range]
  constructor
  · rintro ⟨t, ht, a', ha, b', hb, h⟩
    subst h
    obtain ⟨hl1, hp1, hs1⟩ := (mem_tuplesP m t a').mp ha
    obtain ⟨hl2, hp2, hs2⟩ := (mem_tuplesP n (s - t) b').mp hb
    have hsum : a'.sum + b'.sum = s := by omega
    exact ⟨hl1, hl2, hp1, hp2, hsum⟩
  · rintro ⟨h1, h2, h3, h4, h5⟩
    refine ⟨ab.1.sum, by omega, ab.1, (mem_tuplesP m ab.1.sum ab.1).mpr ⟨h1, h3, rfl⟩,
      ab.2, (mem_tuplesP n (s - ab.1.sum) ab.2).mpr ⟨h2, h4, by omega⟩, Prod.mk.eta⟩

theorem nodup_sideAssign (m n s : ℕ) : (sideAssign m n s).Nodup := by
  unfold sideAssign
  rw [List.nodup_flatMap]
  constructor
  · intro t _
    rw [List.nodup_flatMap]
    constructor
    · intro a _
      exact (nodup_tuplesP n (s - t)).map fun b b' h => by
        simpa using h
    · refine List.Pairwise.imp ?_ (nodup_tuplesP m t)
      intro a a' haa' x hx hx'
      simp only [Function.onFun, List.mem_map] at hx hx'
      obtain ⟨b, -, rfl⟩ := hx
      obtain ⟨b', -, h⟩ := hx'
      exact haa' ((Prod.mk.injEq a' b' a b).mp h).1.symm
  · refine List.Pairwise.imp ?_ (List.nodup_range (s + 1))
    intro t t' htt' x hx hx'
    simp only [Function.onFun, List.mem_flatMap, List.mem_map] at hx hx'
    obtain ⟨a, ha, b, -, rfl⟩ := hx
    obtain ⟨a', ha', b', -, h⟩ := hx'
    have h1 : a.sum = t := ((mem_tuplesP m t a).mp ha).2.2
    have h2 : a'.sum = t' := ((mem_tuplesP m t' a').mp ha').2.2
    have ha'a : a' = a := ((Prod.mk.injEq a' b' a b).mp h).1
    exact htt' (by rw [← h1, ← h2, ha'a])

theorem sideAssign_swap (m n s : ℕ) :
    List.Perm (sideAssign n m s) ((sideAssign m n s).map Prod.swap) := by
  rw [List.perm_ext_iff_of_nodup (nodup_sideAssign n m s)
    ((nodup_sideAssign m n s).map Prod.swap_injective)]
  intro ab
  rw [List.mem_map]
  constructor
  · intro h
    obtain ⟨h1, h2, h3, h4, h5⟩ := (mem_sideAssign n m s ab).mp h
    refine ⟨ab.swap, (mem_sideAssign m n s ab.swap).mpr ?_, Prod.swap_swap ab⟩
    simp only [Prod.fst_swap, Prod.snd_swap]
    exact ⟨h2, h1, h4, h3, by omega⟩
  · rintro ⟨cd, hcd, rfl⟩
    obtain ⟨h1, h2, h3, h4, h5⟩ := (mem_sideAssign m n s cd).mp hcd
    refine (mem_sideAssign n m s cd.swap).mpr ?_
    simp only [Prod.fst_swap, Prod.snd_swap]
    exact ⟨h2, h1, h4, h3, by omega⟩

theorem balancedBool_swap (r p : List Entry) (ab : List ℕ × List ℕ) :
    balancedBool p r ab.swap = balancedBool r p ab := by
  unfold balancedBool
  rw [decide_eq_decide]
  exact ⟨fun h x => (h x).symm, fun h x => (h x).symm⟩

theorem balAt_swap (r p : List Entry) (s : ℕ) :
    List.Perm (balAt p r s) ((balAt r p s).map Prod.swap) := by
  unfold balAt
  refine ((sideAssign_swap r.length p.length s).filter (balancedBool p r)).trans ?_
  rw [List.filter_map]
  have hcongr : (sideAssign r.length p.length s).filter (balancedBool p r ∘ Prod.swap) =
      (sideAssign r.length p.length s).filter (balancedBool r p) :=
    List.filter_congr fun ab _ => balancedBool_swap r p ab
  rw [hcongr]

theorem balanceAux_swap (r p : List Entry) :
    ∀ fuel s : ℕ,
      balanceAux p r fuel s = (balanceAux r p fuel s).map Prod.swap
  | 0, _ => rfl
  | fuel + 1, s => by
    simp only [balanceAux]
    have hperm := balAt_swap r p s
    cases hb : balAt r p s with
    | nil =>
      rw [hb] at hperm
      simp only [List.map_nil, List.perm_nil] at hperm
      rw [hperm]
      exact balanceAux_swap r p fuel (s + 1)
    | cons ab t =>
      cases t with
      | nil =>
        rw [hb] at hperm
        simp only [List.map_cons, List.map_nil, List.perm_singleton] at hperm
        rw [hperm]
        rfl
      | cons ab' t' =>
        rw [hb] at hperm
        have hlen : (balAt p r s).length = t'.length + 2 := by
          simpa using hperm.length_eq
        cases hc : balAt p r s with
        | nil => rw [hc] at hlen; simp at hlen
        | cons x u =>
          cases u with
          | nil => rw [hc] at hlen; simp at hlen
          | cons y v => rfl

/-- C3: when balancing succeeds, balancing with reactants and products
swapped also succeeds, with the same coefficients on the swapped sides,
and the reaction energy is exactly negated. -/
theorem balance_antisymm (maxTotal : ℕ) (r p : List Entry)
    (ab : List ℕ × List ℕ) (h : balance maxTotal r p = some ab) :
    balance maxTotal p r = some ab.swap ∧
      rxnEnergy p r ab.swap = - rxnEnergy r p ab := by
  constructor
  · rw [balance, balanceAux_swap r p maxTotal 0]
    rw [balance] at h
    rw [h]
    rfl
  · obtain ⟨a, b⟩ := ab
    unfold rxnEnergy
    simp only [Prod.swap_prod_mk]
    ring

/-- C3 witness: balancing CaO + CO2 -> CaCO3 succeeds with unit
coefficients, the swapped reaction balances with the sides exchanged, and
its energy is the negation. -/
theorem balance_antisymm_witness :
    balance 6 [eCaO, eCO2] [eCaCO3] = some ([1, 1], [1]) ∧
      balance 6 [eCaCO3] [eCaO, eCO2] = some ([1], [1, 1]) ∧
      rxnEnergy [eCaCO3] [eCaO, eCO2] ([1], [1, 1]) =
        - rxnEnergy [eCaO, eCO2] [eCaCO3] ([1, 1], [1]) :=
  ⟨by decide,
    (balance_antisymm 6 [eCaO, eCO2] [eCaCO3] ([1, 1], [1]) (by decide)).1,
    (balance_antisymm 6 [eCaO, eCO2] [eCaCO3] ([1, 1], [1]) (by decide)).2⟩

theorem balanceAux_sound (r p : List Entry) :
    ∀ (fuel s : ℕ) (ab : List ℕ × List ℕ),
      balanceAux r p fuel s = some ab →
      ∀ x : Elem, sideCount ab.1 r x = sideCount ab.2 p x
  | 0, s, ab, h => by simp [balanceAux] at h
  | fuel + 1, s, ab, h => by
    simp only [balanceAux] at h
    cases hb : balAt r p s with
    | nil =>
      rw [hb] at h
      exact balanceAux_sound r p fuel (s + 1) ab h
    | cons c t =>
      cases t with
      | nil =>
        rw [hb] at h
        simp only [Option.some.injEq] at h
        subst h
        have hc : c ∈ balAt r p s := by
          rw [hb]; exact List.mem_singleton_self c
        have := List.of_mem_filter hc
        exact of_decide_eq_true this
      | cons c' t' =>
        rw [hb] at h
        simp at h

/-- C4: every reaction returned by `balance` has exactly equal scaled
element counts on the two sides. -/
theorem balance_balanced (maxTotal : ℕ) (r p : List Entry)
    (ab : List ℕ × List ℕ) (h : balance maxTotal r p = some ab) :
    ∀ x : Elem, sideCount ab.1 r x = sideCount ab.2 p x :=
  balanceAux_sound r p maxTotal 0 ab h

/-- C4 witness: the balanced CaO + CO2 -> CaCO3 reaction has equal
counts of Ca, C and O on its two sides. -/
theorem balance_balanced_witness :
    sideCount [1, 1] [eCaO, eCO2] Elem.Ca = sideCount [1] [eCaCO3] Elem.Ca ∧
      sideCount [1, 1] [eCaO, eCO2] Elem.C = sideCount [1] [eCaCO3] Elem.C ∧
      sideCount [1, 1] [eCaO, eCO2] Elem.O = sideCount [1] [eCaCO3] Elem.O :=
  ⟨balance_balanced 6 [eCaO, eCO2] [eCaCO3] ([1, 1], [1]) (by decide) Elem.Ca,
    balance_balanced 6 [eCaO, eCO2] [eCaCO3] ([1, 1], [1]) (by decide) Elem.C,
    balance_balanced 6 [eCaO, eCO2] [eCaCO3] ([1, 1], [1]) (by decide) Elem.O⟩

/-- Modelled from the spec: one step of the Structure Deduplicator
(`StructureMatcher.group_structures` lives in the external library, not
in this repository).  A group is a representative paired with its later
members; a new candidate joins the first group whose representative it
matches, else founds a new group at the end, preserving first-seen
order. -/
def addTo {α : Type} (eqv : α → α → Bool) (x : α) :
    List (α × List α) → List (α × List α)
  | [] => [(x, [])]
  | (r, ms) :: gs => if eqv r x then (r, ms ++ [x]) :: gs else (r, ms) :: addTo eqv x gs

/-- Fold all candidates into groups, in input order. -/
def groupCore {α : Type} (eqv : α → α → Bool) (xs : List α) : List (α × List α) :=
  xs.foldl (fun gs x => addTo eqv x gs) []

/-- Modelled from the spec: `group(candidates, tolerance)` of the
Structure Deduplicator — the tolerance is absorbed into the boolean
equivalence test `eqv`.  Groups preserve first-seen order; each group
lists its representative first. -/
def group_structures {α : Type} (eqv : α → α → Bool) (xs : List α) : List (List α) :=
  (groupCore eqv xs).map fun g => g.1 :: g.2

/-- The grouping invariant: each representative fails `eqv` against all
earlier representatives (`pre`), and each member matches its own
representative and fails against all earlier representatives. -/
def OkG {α : Type} (eqv : α → α → Bool) : List α → List (α × List α) → Prop
  | _, [] => True
  | pre, (r, ms) :: gs =>
    (∀ y ∈ pre, eqv y r = false) ∧
      (∀ m ∈ ms, eqv r m = true ∧ ∀ y ∈ pre, eqv y m = false) ∧
      OkG eqv (pre ++ [r]) gs

theorem addTo_ok {α : Type} (eqv : α → α → Bool) (x : α) :
    ∀ (gs : List (α × List α)) (pre : List α), OkG eqv pre gs →
      (∀ y ∈ pre, eqv y x = false) → OkG eqv pre (addTo eqv x gs)
  | [], pre, _, hx => by
    simp only [addTo, OkG]
    exact ⟨hx, by simp, trivial⟩
  | (r, ms) :: gs, pre, hok, hx => by
    obtain ⟨h1, h2, h3⟩ := hok
    simp only [addTo]
    by_cases hr : eqv r x = true
    · rw [if_pos hr]
      refine ⟨h1, ?_, h3⟩
      intro m hm
      rcases List.mem_append.mp hm with hm | hm
      · exact h2 m hm
      · rw [List.mem_singleton.mp hm]
        exact ⟨hr, hx⟩
    · rw [if_neg hr]
      refine ⟨h1, h2, ?_⟩
      apply addTo_ok eqv x gs (pre ++ [r]) h3
      intro y hy
      rcases List.mem_append.mp hy with hy | hy
      · exact hx y hy
      · rw [List.mem_singleton.mp hy]
        exact Bool.eq_false_iff.mpr hr

theorem groupCore_ok {α : Type} (eqv : α → α → Bool) (xs : List α) :
    OkG eqv [] (groupCore eqv xs) := by
  suffices h : ∀ gs, OkG eqv [] gs → OkG eqv [] (xs.foldl (fun gs x => addTo eqv x gs) gs) by
    exact h [] trivial
  induction xs with
  | nil => exact fun gs h => h
  | cons x xs ih =>
    intro gs h
    exact ih (addTo eqv x gs) (addTo_ok eqv x gs [] h (by simp))

theorem ok_flat_fails {α : Type} (eqv : α → α → Bool) :
    ∀ (gs : List (α × List α)) (pre : List α), OkG eqv pre gs →
      ∀ y ∈ ((gs.map fun g => g.1 :: g.2).flatten), ∀ z ∈ pre, eqv z y = false
  | [], _, _ => by simp
  | (r, ms) :: gs, pre, hok => by
    obtain ⟨h1, h2, h3⟩ := hok
    intro y hy z hz
    simp only [List.map_cons, List.flatten_cons, List.mem_append, List.mem_cons] at hy
    rcases hy with (rfl | hy) | hy
    · exact h1 z hz
    · exact (h2 y hy).2 z hz
    · exact ok_flat_fails eqv gs (pre ++ [r]) h3 y (by simpa using hy) z
        (List.mem_append_left _ hz)

theorem foldl_addTo_members {α : Type} (eqv : α → α → Bool) (r : α) :
    ∀ (ms2 ms : List α) (gs : List (α × List α)), (∀ m ∈ ms2, eqv r m = true) →
      ms2.foldl (fun gs x => addTo eqv x gs) ((r, ms) :: gs) = (r, ms ++ ms2) :: gs
  | [], ms, gs, _ => by simp
  | m :: ms2, ms, gs, h => by
    simp only [List.foldl_cons, addTo, if_pos (h m (List.mem_cons_self m ms2))]
    rw [foldl_addTo_members eqv r ms2 (ms ++ [m]) gs
      fun m' hm' => h m' (List.mem_cons_of_mem m hm')]
    simp

theorem foldl_addTo_skip {α : Type} (eqv : α → α → Bool) (r : α) (ms : List α) :
    ∀ (ys : List α) (gs : List (α × List α)), (∀ y ∈ ys, eqv r y = false) →
      ys.foldl (fun gs x => addTo eqv x gs) ((r, ms) :: gs) =
        (r, ms) :: ys.foldl (fun gs x => addTo eqv x gs) gs
  | [], gs, _ => rfl
  | y :: ys, gs, h => by
    have hy : ¬ (eqv r y = true) := by
      rw [h y (List.mem_cons_self y ys)]
      simp
    simp only [List.foldl_cons, addTo, if_neg hy]
    exact foldl_addTo_skip eqv r ms ys (addTo eqv y gs)
      fun y' hy' => h y' (List.mem_cons_of_mem y hy')

theorem groupCore_replay {α : Type} (eqv : α → α → Bool) :
    ∀ (gs : List (α × List α)) (pre : List α), OkG eqv pre gs →
      groupCore eqv ((gs.map fun g => g.1 :: g.2).flatten) = gs
  | [], _, _ => rfl
  | (r, ms) :: gs, pre, hok => by
    obtain ⟨h1, h2, h3⟩ := hok
    unfold groupCore
    simp only [List.map_cons, List.flatten_cons, List.cons_append, List.foldl_cons,
      List.foldl_append]
    have e1 : addTo eqv r [] = [(r, [])] := rfl
    rw [e1, foldl_addTo_members eqv r ms [] [] fun m hm => (h2 m hm).1]
    rw [foldl_addTo_skip eqv r ([] ++ ms) _ []
      fun y hy => ok_flat_fails eqv gs (pre ++ [r]) h3 y hy r (by simp)]
    rw [show ∀ l, List.foldl (fun gs x => addTo eqv x gs) [] l = groupCore eqv l
      from fun l => rfl]
    rw [groupCore_replay eqv gs (pre ++ [r]) h3]
    simp

theorem addTo_all_fail {α : Type} (eqv : α → α → Bool) (x : α) :
    ∀ gs : List (α × List α), (∀ g ∈ gs, eqv g.1 x = false) →
      addTo eqv x gs = gs ++ [(x, [])]
  | [], _ => rfl
  | (r, ms) :: gs, h => by
    simp only [addTo]
    rw [if_neg, addTo_all_fail eqv x gs fun g hg => h g (List.mem_cons_of_mem _ hg)]
    · rfl
    · rw [h (r, ms) (List.mem_cons_self _ gs)]
      simp

theorem groupCore_pairwise {α : Type} (eqv : α → α → Bool) :
    ∀ (xs : List α) (gs : List (α × List α)),
      (∀ g ∈ gs, ∀ x ∈ xs, eqv g.1 x = false) →
      List.Pairwise (fun a b => eqv a b = false) xs →
      xs.foldl (fun gs x => addTo eqv x gs) gs = gs ++ xs.map fun x => (x, [])
  | [], gs, _, _ => by simp
  | x :: xs, gs, hall, hpw => by
    simp only [List.foldl_cons]
    rw [addTo_all_fail eqv x gs fun g hg => hall g hg x (List.mem_cons_self x xs)]
    rw [groupCore_pairwise eqv xs (gs ++ [(x, [])]) ?_ (List.pairwise_cons.mp hpw).2]
    · simp
    · intro g hg y hy
      rcases List.mem_append.mp hg with hg | hg
      · exact hall g hg y (List.mem_cons_of_mem x hy)
      · rw [List.mem_singleton.mp hg]
        exact (List.pairwise_cons.mp hpw).1 y hy

/-- C5: deduplication is idempotent — flattening the groups of
`group_structures eqv xs` and grouping again reproduces exactly the same
groups; and grouping an already-deduplicated list (pairwise inequivalent
candidates) returns only singleton groups.  This holds for every boolean
equivalence test, i.e. every tolerance. -/
theorem group_structures_idempotent {α : Type} (eqv : α → α → Bool) (xs : List α) :
    group_structures eqv ((group_structures eqv xs).flatten) = group_structures eqv xs ∧
      (List.Pairwise (fun a b => eqv a b = false) xs →
        ∀ g ∈ group_structures eqv xs, ∃ a, g = [a]) := by
  constructor
  · unfold group_structures
    rw [groupCore_replay eqv (groupCore eqv xs) [] (groupCore_ok eqv xs)]
  · intro hpw g hg
    unfold group_structures groupCore at hg
    rw [groupCore_pairwise eqv xs [] (by simp) hpw] at hg
    simp only [List.nil_append, List.map_map, List.mem_map] at hg
    obtain ⟨a, -, rfl⟩ := hg
    exact ⟨a, rfl⟩

/-- C5 witness: a concrete grouping (residues mod 3) — regrouping the
flattened groups reproduces them, and a pairwise-inequivalent input
yields singleton groups. -/
theorem group_structures_idempotent_witness :
    group_structures (fun a b : ℕ => decide (a % 3 = b % 3))
        ((group_structures (fun a b : ℕ => decide (a % 3 = b % 3))
          [0, 1, 3, 4, 2]).flatten) =
      group_structures (fun a b : ℕ => decide (a % 3 = b % 3)) [0, 1, 3, 4, 2] ∧
      ∀ g ∈ group_structures (fun a b : ℕ => decide (a % 3 = b % 3)) [0, 1, 2],
        ∃ a, g = [a] :=
  ⟨(group_structures_idempotent (fun a b : ℕ => decide (a % 3 = b % 3))
      [0, 1, 3, 4, 2]).1,
    (group_structures_idempotent (fun a b : ℕ => decide (a % 3 = b % 3))
      [0, 1, 2]).2 (by decide)⟩

/-- Species occurring in the ordering notebook's disordered CuAu cell. -/
inductive Species where
  | Cu : Species
  | Au : Species
deriving DecidableEq, Repr

/-- Modelled from the spec: the candidate orderings of a disordered
structure (the enumeration transformations live in the external library,
not in this repository).  A site list gives each site's allowed species;
an ordering picks one species per site and must realize the target
overall composition fixed by the occupancies. -/
def orderings {α : Type} [DecidableEq α] (sites : List (List α)) (target : List α) :
    List (List α) :=
  (List.sections sites).filter fun o => o.isPerm target

/-- Modelled from the spec: the Heuristic strategy
(`OrderDisorderedStructureTransformation`) — rank all orderings by the
opaque scoring oracle (Ewald summation in the library), ascending, and
return up to `limit` of them; symmetry-equivalent duplicates are kept. -/
def heuristic {α : Type} [DecidableEq α] (score : List α → ℚ) (limit : ℕ)
    (sites : List (List α)) (target : List α) : List (List α) :=
  (List.insertionSort (fun a b => score a ≤ score b) (orderings sites target)).take limit

/-- A `k`-fold supercell: the site (or species) list repeated `k`
times. -/
def supercell {α : Type} (k : ℕ) (l : List α) : List α := (List.replicate k l).flatten

/-- Keep the first-seen representative of each equivalence class. -/
def dedupBy {α : Type} (eqv : α → α → Bool) (xs : List α) : List α :=
  xs.foldl (fun acc x => if acc.any (fun y => eqv y x) then acc else acc ++ [x]) []

/-- Modelled from the spec: the Exhaustive strategy
(`EnumerateStructureTransformation` backed by enumlib) — for each cell
multiple `k = 1, ..., maxCell`, enumerate the orderings of the `k`-fold
supercell and keep one representative per equivalence class. -/
def exhaustive {α : Type} [DecidableEq α] (eqv : List α → List α → Bool) (maxCell : ℕ)
    (sites : List (List α)) (target : List α) : List (List α) :=
  ((List.range maxCell).map fun k =>
    dedupBy eqv (orderings (supercell (k + 1) sites) (supercell (k + 1) target))).flatten

/-- C8: the Heuristic strategy returns at most `limit` candidates, and
they are sorted ascending by ranking score; nothing excludes
symmetry-equivalent duplicates. -/
theorem heuristic_limit_sorted {α : Type} [DecidableEq α] (score : List α → ℚ)
    (limit : ℕ) (sites : List (List α)) (target : List α) :
    (heuristic score limit sites target).length ≤ limit ∧
      (heuristic score limit sites target).Pairwise fun a b => score a ≤ score b := by
  haveI ht : IsTotal (List α) fun a b => score a ≤ score b :=
    ⟨fun a b => le_total (score a) (score b)⟩
  haveI htr : IsTrans (List α) fun a b => score a ≤ score b :=
    ⟨fun _ _ _ h1 h2 => le_trans h1 h2⟩
  constructor
  · rw [heuristic, List.length_take]
    exact min_le_left _ _
  · exact List.Pairwise.sublist (List.take_sublist _ _)
      (List.sorted_insertionSort (fun a b => score a ≤ score b) (orderings sites target))

/-- The 50/50 Cu/Au two-site disordered cell. -/
def sites2 : List (List Species) := [[Species.Cu, Species.Au], [Species.Cu, Species.Au]]

/-- The overall composition of `sites2`: one Cu and one Au per cell. -/
def target2 : List Species := [Species.Cu, Species.Au]

/-- Rotation (lattice-translation) equivalence of orderings: equal
length and one is a cyclic rotation of the other. -/
def eqvRot (a b : List Species) : Bool :=
  decide (a.length = b.length) &&
    (List.range (a.length + 1)).any fun i => decide (b = a.rotate i)

theorem eqvRot_refl (x : List Species) : eqvRot x x = true := by
  unfold eqvRot
  rw [Bool.and_eq_true]
  refine ⟨by simp, ?_⟩
  rw [List.any_eq_true]
  exact ⟨0, by simp, by simp⟩

/-- The constant scoring oracle used in concrete instances. -/
def score0 : List Species → ℚ := fun _ => 0

/-- C6 counterexample: on the two-site 50/50 CuAu cell, with supercells
enabled (cell multiple up to 2, as in the notebook's enumeration run) the
Exhaustive strategy emits 4-site candidates, and no Heuristic unit-cell
candidate is equivalent to them, even with a limit exceeding all
orderings — the claim as stated is false. -/
theorem exhaustive_subset_heuristic_cex :
    ¬ ∀ c ∈ exhaustive eqvRot 2 sites2 target2,
        ∃ h ∈ heuristic score0 100 sites2 target2, eqvRot c h = true := by
  decide

theorem mem_dedupBy_core {α : Type} (eqv : α → α → Bool) :
    ∀ (xs acc : List α) (x : α),
      x ∈ xs.foldl
        (fun acc x => if acc.any (fun y => eqv y x) then acc else acc ++ [x]) acc →
      x ∈ acc ∨ x ∈ xs
  | [], acc, x, h => Or.inl h
  | z :: xs, acc, x, h => by
    simp only [List.foldl_cons] at h
    rcases mem_dedupBy_core eqv xs _ x h with h' | h'
    · by_cases hz : (acc.any fun y => eqv y z) = true
      · rw [if_pos hz] at h'
        exact Or.inl h'
      · rw [if_neg hz] at h'
        rcases List.mem_append.mp h' with h'' | h''
        · exact Or.inl h''
        · refine Or.inr ?_
          rw [List.mem_singleton.mp h'']
          exact List.mem_cons_self z xs
    · exact Or.inr (List.mem_cons_of_mem z h')

theorem mem_dedupBy {α : Type} (eqv : α → α → Bool) (xs : List α) (x : α)
    (h : x ∈ dedupBy eqv xs) : x ∈ xs := by
  rcases mem_dedupBy_core eqv xs [] x h with h' | h'
  · simp at h'
  · exact h'

/-- C6 amended: restricted to cell multiple 1 (the input cell itself),
with a reflexive equivalence and a Heuristic limit covering all
orderings, every Exhaustive candidate is equivalent to some Heuristic
candidate. -/
theorem exhaustive_subset_heuristic_unitcell {α : Type} [DecidableEq α]
    (eqv : List α → List α → Bool) (score : List α → ℚ) (sites : List (List α))
    (target : List α) (limit : ℕ)
    (hrefl : ∀ x, eqv x x = true)
    (hlim : (orderings sites target).length ≤ limit) :
    ∀ c ∈ exhaustive eqv 1 sites target,
      ∃ h ∈ heuristic score limit sites target, eqv c h = true := by
  intro c hc
  have hsc : ∀ l : List (List α), supercell 1 l = l := by
    intro l
    simp [supercell]
  have hsc2 : ∀ l : List α, supercell 1 l = l := by
    intro l
    simp [supercell]
  rw [exhaustive, show List.range 1 = [0] from rfl, List.map_cons, List.map_nil,
    List.flatten_cons, List.flatten_nil, List.append_nil, hsc, hsc2] at hc
  have hmem : c ∈ orderings sites target := mem_dedupBy eqv _ c hc
  refine ⟨c, ?_, hrefl c⟩
  rw [heuristic, List.take_of_length_le, List.mem_insertionSort]
  · exact hmem
  · rw [List.length_insertionSort]
    exact hlim

/-- C6 amended witness: on the two-site CuAu cell with rotation
equivalence and limit 2 (the number of orderings), every unit-cell
Exhaustive candidate has an equivalent Heuristic candidate. -/
theorem exhaustive_subset_heuristic_unitcell_witness :
    (exhaustive eqvRot 1 sites2 target2).all
        (fun c => (heuristic score0 2 sites2 target2).any fun h => eqvRot c h) = true := by
  have H := exhaustive_subset_heuristic_unitcell eqvRot score0 sites2 target2 2
    eqvRot_refl (by decide)
  rw [List.all_eq_true]
  intro c hc
  obtain ⟨h, hh, he⟩ := H c hc
  exact List.any_eq_true.mpr ⟨h, hh, he⟩

/-- Element symbols for formula rendering. -/
def elemSym : Elem → String
  | .Ca => "Ca"
  | .C => "C"
  | .O => "O"

/-- Element display order used by the library's reduced formulas
(electronegativity order): Ca, then C, then O. -/
def elemOrder : List Elem := [Elem.Ca, Elem.C, Elem.O]

/-- Modelled from the spec: render a composition as a formula string
(the library's formula serialization), omitting the count 1. -/
def formulaStr (c : Comp) : String :=
  String.join ((elemOrder.filter fun e => decide (c e ≠ 0)).map fun e =>
    elemSym e ++ (if c e = 1 then "" else Nat.repr (c e)))

/-- One rendered reaction term: the coefficient (omitted when 1) and the
reduced formula of the composition. -/
def termStr (k : ℕ) (c : Comp) : String :=
  (if k = 1 then "" else Nat.repr k ++ " ") ++ formulaStr c

/-- Modelled from the spec: render a balanced reaction as
"reactants -> products" with " + "-separated terms, as the library's
reaction printing does with reduced formulas. -/
def reactionStr (r p : List Entry) (ab : List ℕ × List ℕ) : String :=
  String.intercalate " + " (List.zipWith (fun k e => termStr k e.comp.reduced) ab.1 r) ++
    " -> " ++
    String.intercalate " + " (List.zipWith (fun k e => termStr k e.comp.reduced) ab.2 p)

/-- Modelled from the spec: the experimental entry set, kJ/mol per
formula unit — CaO and CaCO3 stand in for the experimental database
values the notebook fetches, CO2 is the NIST value the notebook hardcodes
(-393.51); chosen to reproduce the recorded -178.3 kJ/mol reaction
energy. -/
def eCaOexp : Entry := ⟨compCaO, -63509/100⟩

/-- The experimental CO2 entry (see `eCaOexp`): -393.51 kJ/mol. -/
def eCO2exp : Entry := ⟨compCO2, -39351/100⟩

/-- The experimental CaCO3 entry (see `eCaOexp`). -/
def eCaCO3exp : Entry := ⟨compCaCO3, -120690/100⟩

/-- Modelled from the spec: the experimental entry repository. -/
def expEntries : List Entry := [eCaOexp, eCO2exp, eCaCO3exp]

/-- Modelled from the spec: the eV-to-kJ/mol conversion factor applied by
`FloatWithUnit.to("kJ mol^-1")`, as a rational (1 eV per formula unit is
96.48533 kJ/mol). -/
def evToKJmol : ℚ := 9648533 / 100000

/-- Evaluation of `get_most_stable_entry` on the calculated repository at
CO2: two entries match and the -22.93 eV one wins per atom. -/
theorem gmse_CO2_eval : get_most_stable_entry calcEntries compCO2 = some eCO2 := by
  have h1 : epaRel eCO2 eCO2hi := by
    norm_num [epaRel, Entry.energy_per_atom, natoms_eval, eCO2, eCO2hi, compCO2]
  unfold get_most_stable_entry entries_for
  rw [show calcEntries.filter (fun e => decide (e.comp.reduced = compCO2.reduced)) =
      [eCO2, eCO2hi] from rfl]
  simp [List.insertionSort, List.orderedInsert, h1]

/-- Evaluation of `get_most_stable_entry` on the calculated repository at
CaCO3: a single entry matches. -/
theorem gmse_CaCO3_eval : get_most_stable_entry calcEntries compCaCO3 = some eCaCO3 := rfl

/-- C7: from the calculated entry set, the lowest-energy CaO, CO2 and
CaCO3 entries balance with unit coefficients, render as
"CaO + CO2 -> CaCO3", and the reaction energy converts to within 1 of
-147 kJ/mol; from the experimental entry set the same reaction renders
identically and its energy is within 1 of -178 kJ/mol. -/
theorem reaction_example :
    get_most_stable_entry calcEntries compCaO = some eCaO ∧
      get_most_stable_entry calcEntries compCO2 = some eCO2 ∧
      get_most_stable_entry calcEntries compCaCO3 = some eCaCO3 ∧
      balance 6 [eCaO, eCO2] [eCaCO3] = some ([1, 1], [1]) ∧
      reactionStr [eCaO, eCO2] [eCaCO3] ([1, 1], [1]) = "CaO + CO2 -> CaCO3" ∧
      |evToKJmol * rxnEnergy [eCaO, eCO2] [eCaCO3] ([1, 1], [1]) - (-147)| < 1 ∧
      get_most_stable_entry expEntries compCaO = some eCaOexp ∧
      get_most_stable_entry expEntries compCO2 = some eCO2exp ∧
      get_most_stable_entry expEntries compCaCO3 = some eCaCO3exp ∧
      balance 6 [eCaOexp, eCO2exp] [eCaCO3exp] = some ([1, 1], [1]) ∧
      reactionStr [eCaOexp, eCO2exp] [eCaCO3exp] ([1, 1], [1]) = "CaO + CO2 -> CaCO3" ∧
      |rxnEnergy [eCaOexp, eCO2exp] [eCaCO3exp] ([1, 1], [1]) - (-178)| < 1 := by
  refine ⟨gmse_CaO_eval, gmse_CO2_eval, gmse_CaCO3_eval, by decide, by decide, ?_,
    rfl, rfl, rfl, by decide, by decide, ?_⟩
  · norm_num [rxnEnergy, evToKJmol, eCaO, eCO2, eCaCO3, abs]
  · norm_num [rxnEnergy, eCaOexp, eCO2exp, eCaCO3exp, abs]
